import Mathlib

/-
A shallow embedding of `experiment_utils.py` from the
Melody-Contour-Classification repository, together with proofs about the
claims of its specification.

Conventions:
* Python floats are modelled as rationals (ℚ); a float NaN is modelled as
  `none : Option ℚ` and a defined float value `x` as `some x`.
* pandas DataFrames of contour records are modelled as `List ContourRecord`;
  Python dicts keyed by track id are association lists with
  insert-or-replace semantics.
* `sklearn.metrics.roc_curve(y_true, y_score, pos_label=1)` is embedded
  following its library semantics: samples are binarised by comparison with
  `pos_label` (no validation of the label set), the candidate thresholds are
  the distinct scores sorted descending, a leading point with threshold
  `max_score + 1` and zero counts is prepended, and when a class is absent
  the corresponding rate array is all NaN (no exception is raised).
  The `drop_intermediate` optimisation of newer sklearn versions only
  removes collinear interior curve points and is not modelled; no theorem
  below depends on its presence or absence.
* `np.argmax` over a float array returns the index of the first NaN when
  one is present (NaN propagates as maximal in numpy's comparison loop),
  otherwise the first index attaining the maximum; `npArgmax` models this.
-/

namespace MelodyContour

/-- Insert a rational into a descending-sorted list, keeping it sorted. -/
def insertDesc (x : ℚ) : List ℚ → List ℚ
  | [] => [x]
  | y :: ys => if y ≤ x then x :: y :: ys else y :: insertDesc x ys

/-- Sort a list of rationals in descending order (insertion sort). -/
def sortDesc (l : List ℚ) : List ℚ := l.foldr insertDesc []

/-- The candidate thresholds used by `sklearn.metrics.roc_curve`:
the distinct predicted scores, sorted descending. -/
def descThresholds (scores : List ℚ) : List ℚ := (sortDesc scores).dedup

/-- Number of true positives at threshold `t`: samples whose score is ≥ `t`
and whose label equals `pos_label = 1`. -/
def tpsAt (pairs : List (ℤ × ℚ)) (t : ℚ) : ℕ :=
  pairs.countP (fun p => decide (t ≤ p.2) && decide (p.1 = 1))

/-- Number of false positives at threshold `t`: samples whose score is ≥ `t`
and whose label differs from `pos_label = 1`. -/
def fpsAt (pairs : List (ℤ × ℚ)) (t : ℚ) : ℕ :=
  pairs.countP (fun p => decide (t ≤ p.2) && !(decide (p.1 = 1)))

/-- Result of `sklearn.metrics.roc_curve`: false-positive rates,
true-positive rates (entries are `none` when the rate is NaN), and the
candidate thresholds. -/
structure RocResult where
  fpr : List (Option ℚ)
  tpr : List (Option ℚ)
  thresholds : List ℚ
deriving DecidableEq

/-- Embedding of `sklearn.metrics.roc_curve(y_true, y_score, pos_label=1)`.
With an explicit `pos_label` the library performs no validation of the label
set: labels are binarised by `== pos_label`.  Cumulative counts are taken at
each distinct score threshold (descending), a `(0, 0)` point with threshold
`max_score + 1` is prepended, and each count array is divided by its last
entry; when that entry is `≤ 0` (a class is absent) the whole rate array is
NaN (`none`), mirroring `fps[-1] <= 0` / `tps[-1] <= 0` in the library. -/
def roc_curve (yTrue : List ℤ) (yScore : List ℚ) : RocResult :=
  let pairs := yTrue.zip yScore
  let ts := descThresholds yScore
  let fpsL : List ℚ := 0 :: ts.map (fun t => (fpsAt pairs t : ℚ))
  let tpsL : List ℚ := 0 :: ts.map (fun t => (tpsAt pairs t : ℚ))
  let thrs : List ℚ := match ts with | [] => [] | t0 :: _ => (t0 + 1) :: ts
  { fpr := if fpsL.getLastD 0 ≤ 0 then fpsL.map (fun _ => (none : Option ℚ))
      else fpsL.map (fun c => some (c / fpsL.getLastD 0))
    tpr := if tpsL.getLastD 0 ≤ 0 then tpsL.map (fun _ => (none : Option ℚ))
      else tpsL.map (fun c => some (c / tpsL.getLastD 0))
    thresholds := thrs }

/-- Elementwise numpy expression `2*(p*r)/(p+r)` on floats with NaN
modelled as `none`: a NaN operand propagates, and `p + r = 0` yields the
NaN of `0.0 / 0.0` (for ROC-derived inputs `p` and `r` are nonnegative, so
the numerator is then also zero). -/
def nanF : Option ℚ → Option ℚ → Option ℚ
  | some p, some r => if p + r = 0 then none else some (2 * (p * r) / (p + r))
  | _, _ => none

/-- The F-score array of `get_best_threshold`:
`P = 1 - fpr`, `R = tpr`, `f_scores = 2*(P*R)/(P+R)` elementwise. -/
def fScores (yRef : List ℤ) (yScore : List ℚ) : List (Option ℚ) :=
  let r := roc_curve yRef yScore
  List.zipWith nanF (r.fpr.map (Option.map (fun x => 1 - x))) r.tpr

/-- The comparison used to characterise numpy's argmax on floats with NaN
modelled as `none`: `none` (NaN) is maximal. -/
def oleb : Option ℚ → Option ℚ → Bool
  | _, none => true
  | none, some _ => false
  | some a, some b => decide (a ≤ b)

/-- Whether `x` is an upper bound of the array `l` under `oleb`. -/
def maxPred (l : List (Option ℚ)) (x : Option ℚ) : Bool :=
  l.all (fun y => oleb y x)

/-- Embedding of `np.argmax` on a float array (NaN as `none`): the index of
the first NaN when one is present, otherwise the first index attaining the
maximum.  (numpy raises on an empty array; the value at `[]` is unused.) -/
def npArgmax (l : List (Option ℚ)) : ℕ :=
  match l.findIdx? (fun x => x.isNone) with
  | some i => i
  | none => l.findIdx (maxPred l)

/-- Embedding of `get_best_threshold(Y_ref, Y_pred_score)` (the plotting
side effect is presentational and not modelled): compute the ROC curve,
derive the F-score array, and index `thresholds` and `f_scores` at
`np.argmax(f_scores)`. -/
def get_best_threshold (yRef : List ℤ) (yScore : List ℚ) : ℚ × Option ℚ :=
  let fs := fScores yRef yScore
  let i := npArgmax fs
  ((roc_curve yRef yScore).thresholds.getD i 0, fs.getD i none)

/-- A valid input in the sense of the specification: reference labels are
binary with both classes present (and aligned with the scores). -/
def ValidInput (yRef : List ℤ) (yScore : List ℚ) : Prop :=
  yRef.length = yScore.length ∧ (∀ y ∈ yRef, y = 0 ∨ y = 1) ∧
    0 ∈ yRef ∧ 1 ∈ yRef

instance (yRef : List ℤ) (yScore : List ℚ) : Decidable (ValidInput yRef yScore) := by
  unfold ValidInput; infer_instance

/-- A contour candidate record: its numeric feature vector, its overlap with
the annotation, its binary melody label, and its melody probability
(the DataFrame columns used by `experiment_utils.py`). -/
structure ContourRecord where
  features : List ℚ
  overlap : ℚ
  label : ℤ
  melProb : ℚ
deriving DecidableEq

/-- A dict of DataFrames keyed by track id. -/
abbrev ContourDict := List (String × List ContourRecord)

/-- Modelled from the spec: the external collaborator
`contour_classification.contour_utils.label_contours` is not part of the
sources; per the spec it sets `label = 1` if `overlap > olap_thresh` else
`0` for every record (strictly-greater-than comparator). -/
def label_contours (contour_data : List ContourRecord) (olap_thresh : ℚ) :
    List ContourRecord :=
  contour_data.map (fun r =>
    { r with label := if olap_thresh < r.overlap then 1 else 0 })

/-- Embedding of `label_all_contours`: reassigns every entry of each of the
three dicts to its relabelled DataFrame and returns the three dicts. -/
def label_all_contours (train_contour_dict valid_contour_dict
    test_contour_dict : ContourDict) (olap_thresh : ℚ) :
    ContourDict × ContourDict × ContourDict :=
  (train_contour_dict.map (fun kv => (kv.1, label_contours kv.2 olap_thresh)),
   valid_contour_dict.map (fun kv => (kv.1, label_contours kv.2 olap_thresh)),
   test_contour_dict.map (fun kv => (kv.1, label_contours kv.2 olap_thresh)))

/-- Modelled from the spec: the external collaborator
`contour_classification.contour_utils.pd_to_sklearn` is not part of the
sources; per the spec it is the feature-projection step extracting a feature
matrix (one row per record) and a label vector from the contour records. -/
def pd_to_sklearn (contour_data : List ContourRecord) :
    List (List ℚ) × List ℤ :=
  (contour_data.map (fun r => r.features), contour_data.map (fun r => r.label))

/-- Failure of the prediction step of `contour_probs`: the classifier
raised, or its output length does not match the DataFrame (in which case the
pandas column assignment raises). -/
inductive PredError where
  | clfFailure : PredError
  | lengthMismatch : PredError
deriving DecidableEq

/-- The column assignment `contour_data['mel prob'] = -1`. -/
def setMelProb (v : ℚ) (df : List ContourRecord) : List ContourRecord :=
  df.map (fun r => { r with melProb := v })

/-- The column assignment `contour_data['mel prob'] = mel_probs` for a list
of per-row values (defined when the lengths agree). -/
def setMelProbs (df : List ContourRecord) (ps : List ℚ) : List ContourRecord :=
  List.zipWith (fun r p => { r with melProb := p }) df ps

/-- Embedding of `contour_probs(clf, contour_data)`.  The Python function
mutates `contour_data` in place and returns the same object; the embedding
passes the state explicitly: the first component is the returned value (or
the error the call raises), and the second component is the caller-visible
state of the input DataFrame once the call finishes, normally or not.
The classifier may raise, modelled by `Except`. -/
def contour_probs (clf : List (List ℚ) → Except PredError (List (ℚ × ℚ)))
    (contour_data : List ContourRecord) :
    Except PredError (List ContourRecord) × List ContourRecord :=
  let d1 := setMelProb (-1) contour_data
  let X := (pd_to_sklearn d1).1
  match clf X with
  | Except.error e => (Except.error e, d1)
  | Except.ok probs =>
      let mel_probs := probs.map (fun p => p.2)
      if mel_probs.length = d1.length then
        let d2 := setMelProbs d1 mel_probs
        (Except.ok d2, d2)
      else (Except.error PredError.lengthMismatch, d1)

/-- The descriptive statistics of a pandas `Series.describe()` that the
claims exercise: count, mean, min and max (the remaining fields, std and
the quartiles, are irrational-valued and used by no claim). The mean of an
empty series is NaN (`none`). -/
structure Describe where
  count : ℕ
  mean : Option ℚ
  dmin : Option ℚ
  dmax : Option ℚ
deriving DecidableEq

/-- `describe()` of a series of rationals. -/
def describe (l : List ℚ) : Describe :=
  { count := l.length
    mean := if l.length = 0 then none else some (l.sum / (l.length : ℚ))
    dmin := l.min?
    dmax := l.max? }

/-- The concatenation of every record's overlap value across all tracks of
the dict (`cc.join_contours` of the per-track overlap columns; modelled from
the spec: `join_contours` is the external concatenation collaborator). -/
def allOverlaps (train_contour_dict : ContourDict) : List ℚ :=
  (train_contour_dict.map (fun kv => kv.2.map (fun r => r.overlap))).flatten

/-- Embedding of `olap_stats`: the overlap values are partitioned into the
strictly-positive subset (`overlap_dat[overlap_dat > 0]`) and the
zero-overlap subset (`overlap_dat[overlap_dat == 0]`) and each is
described; returned in the order (non-zero stats, zero stats). -/
def olap_stats (train_contour_dict : ContourDict) : Describe × Describe :=
  let overlap_dat := allOverlaps train_contour_dict
  let non_zero_olap := overlap_dat.filter (fun o => decide (0 < o))
  let zero_olap := overlap_dat.filter (fun o => decide (o = 0))
  (describe non_zero_olap, describe zero_olap)

/-- A Python dict keyed by track id, as an association list. -/
abbrev Dict (α : Type) := List (String × α)

/-- Python dict assignment `d[k] = v`: replace in place if the key is
present, append otherwise. -/
def dictInsert {α : Type} (d : Dict α) (k : String) (v : α) : Dict α :=
  if d.any (fun kv => decide (kv.1 = k)) then
    d.map (fun kv => if kv.1 = k then (k, v) else kv)
  else d ++ [(k, v)]

/-- Python dict lookup `d[k]` (`none` when the key is absent). -/
def dictLookup {α : Type} : Dict α → String → Option α
  | [], _ => none
  | kv :: rest, k => if kv.1 = k then some kv.2 else dictLookup rest k

/-- The keys of a dict, in insertion order. -/
def dictKeys {α : Type} (d : Dict α) : List String := d.map (fun kv => kv.1)

/-- A loop `for track in tracks: d[track] = f(track)` over an initial
dict. -/
def insertAll {α : Type} (f : String → α) (tracks : List String)
    (d0 : Dict α) : Dict α :=
  tracks.foldl (fun d track => dictInsert d track (f track)) d0

/-- Embedding of `compute_all_overlaps(train_tracks, valid_tracks,
test_tracks, meltype)`.  The per-track data loading (`get_data_files`, file
I/O) and the external overlap computation (`cc.compute_overlap`) are taken
as parameters `load` and `computeOverlap`; the progress printing is
presentational and not modelled.  For each training track the
overlap-augmented contours are stored keyed by track id; for validation and
test tracks a copy of the raw annotation is additionally stored; the five
dicts are returned in the order (train contours, valid contours, valid
annotations, test contours, test annotations). -/
def compute_all_overlaps {C A D : Type} (load : String → C × A)
    (computeOverlap : C → A → D)
    (train_tracks valid_tracks test_tracks : List String) :
    Dict D × Dict D × Dict A × Dict D × Dict A :=
  let train_contour_dict := train_tracks.foldl
    (fun d track =>
      dictInsert d track (computeOverlap (load track).1 (load track).2)) []
  let vstep := valid_tracks.foldl
    (fun dd track =>
      (dictInsert dd.1 track (load track).2,
       dictInsert dd.2 track (computeOverlap (load track).1 (load track).2)))
    ([], [])
  let tstep := test_tracks.foldl
    (fun dd track =>
      (dictInsert dd.1 track (load track).2,
       dictInsert dd.2 track (computeOverlap (load track).1 (load track).2)))
    ([], [])
  (train_contour_dict, vstep.2, vstep.1, tstep.2, tstep.1)

-- concrete data used by the witnesses

/-- A concrete contour record for witnesses. -/
def wRecord : ContourRecord :=
  { features := [1, 2], overlap := 7/10, label := 0, melProb := 0 }

/-- A concrete classifier that always raises, for the error-path witness. -/
def wClfFail : List (List ℚ) → Except PredError (List (ℚ × ℚ)) :=
  fun _ => Except.error PredError.clfFailure

/-- A concrete classifier returning one probability pair per row. -/
def wClfOk : List (List ℚ) → Except PredError (List (ℚ × ℚ)) :=
  fun rows => Except.ok (rows.map (fun _ => ((1 : ℚ)/4, 3/4)))

/-- A concrete loader for the `compute_all_overlaps` witness: contour data
and annotation data are both strings derived from the track id. -/
def wLoad : String → String × String :=
  fun track => (track ++ ".contour", track ++ ".annot")

/-- A concrete overlap computation for the `compute_all_overlaps`
witness. -/
def wOverlap : String → String → String :=
  fun c a => c ++ "+" ++ a

/-- The train dict of the spec's `olap_stats` scenario: track t1 with
overlaps 0, 0.6, 0.9 and track t2 with overlaps 0, 0.2. -/
def wTrainDict : ContourDict :=
  [("t1", [{ features := [], overlap := 0, label := 0, melProb := 0 },
           { features := [], overlap := 3/5, label := 0, melProb := 0 },
           { features := [], overlap := 9/10, label := 0, melProb := 0 }]),
   ("t2", [{ features := [], overlap := 0, label := 0, melProb := 0 },
           { features := [], overlap := 1/5, label := 0, melProb := 0 }])]

/-! Helper lemmas. -/

theorem oleb_refl (a : Option ℚ) : oleb a a = true := by
  cases a <;> simp [oleb]

theorem oleb_total (a b : Option ℚ) : oleb a b = true ∨ oleb b a = true := by
  cases a <;> cases b <;> simp [oleb]
  exact le_total _ _

theorem oleb_trans {a b c : Option ℚ} (h1 : oleb a b = true)
    (h2 : oleb b c = true) : oleb a c = true := by
  cases a <;> cases b <;> cases c <;> simp [oleb] at *
  exact le_trans h1 h2

theorem exists_oleb_max (l : List (Option ℚ)) (h : l ≠ []) :
    ∃ x ∈ l, ∀ y ∈ l, oleb y x = true := by
  induction l with
  | nil => exact absurd rfl h
  | cons a t ih =>
    cases t with
    | nil => exact ⟨a, by simp, by simp [oleb_refl]⟩
    | cons b u =>
      obtain ⟨x, hx, hmax⟩ := ih (by simp)
      rcases oleb_total a x with hax | hxa
      · refine ⟨x, List.mem_cons_of_mem _ hx, ?_⟩
        intro y hy
        rcases List.mem_cons.mp hy with rfl | hy
        · exact hax
        · exact hmax y hy
      · refine ⟨a, List.mem_cons_self _ _, ?_⟩
        intro y hy
        rcases List.mem_cons.mp hy with rfl | hy
        · exact oleb_refl y
        · exact oleb_trans (hmax y hy) hxa

theorem maxPred_eq_true {l : List (Option ℚ)} {x : Option ℚ} :
    maxPred l x = true ↔ ∀ y ∈ l, oleb y x = true := by
  unfold maxPred
  exact List.all_eq_true

theorem npArgmax_lt_length (l : List (Option ℚ)) (h : l ≠ []) :
    npArgmax l < l.length := by
  unfold npArgmax
  cases hfi : l.findIdx? (fun x => x.isNone) with
  | some i =>
    exact (List.findIdx?_eq_some_iff_findIdx_eq.mp hfi).1
  | none =>
    obtain ⟨x, hx, hmax⟩ := exists_oleb_max l h
    exact List.findIdx_lt_length_of_exists
      ⟨x, hx, maxPred_eq_true.mpr hmax⟩

theorem npArgmax_eq_first_max (l : List (Option ℚ)) (h : l ≠ [])
    (hn : (none : Option ℚ) ∉ l) :
    ∃ v : ℚ, l.get? (npArgmax l) = some (some v) ∧
      (∀ j w, l.get? j = some (some w) → w ≤ v) ∧
      (∀ j, j < npArgmax l → ∀ w, l.get? j = some (some w) → w < v) := by
  have hfi : l.findIdx? (fun x => x.isNone) = none := by
    rw [List.findIdx?_eq_none_iff]
    intro x hx
    cases x with
    | none => exact absurd hx hn
    | some v => rfl
  have hargeq : npArgmax l = l.findIdx (maxPred l) := by
    unfold npArgmax
    rw [hfi]
  have hlt : npArgmax l < l.length := npArgmax_lt_length l h
  have hlt' : l.findIdx (maxPred l) < l.length := hargeq ▸ hlt
  have hp : maxPred l (l[l.findIdx (maxPred l)]) = true :=
    List.findIdx_getElem
  obtain ⟨v, hv⟩ : ∃ v : ℚ, l[l.findIdx (maxPred l)] = some v := by
    cases hx : l[l.findIdx (maxPred l)] with
    | none => exact absurd (hx ▸ List.getElem_mem hlt') hn
    | some v => exact ⟨v, rfl⟩
  rw [hv] at hp
  have hmax : ∀ y ∈ l, oleb y (some v) = true := maxPred_eq_true.mp hp
  refine ⟨v, ?_, ?_, ?_⟩
  · rw [hargeq, List.get?_eq_getElem?, List.getElem?_eq_getElem hlt', hv]
  · intro j w hj
    have hwl : (some w : Option ℚ) ∈ l := by
      rw [List.get?_eq_getElem?] at hj
      exact List.getElem?_mem hj
    have := hmax _ hwl
    simpa [oleb] using this
  · intro j hj w hjw
    have hjlt : j < l.length := lt_trans hj hlt
    have hjget : l[j] = some w := by
      rw [List.get?_eq_getElem?, List.getElem?_eq_getElem hjlt] at hjw
      exact Option.some_injective _ hjw
    have hj' : j < l.findIdx (maxPred l) := hargeq ▸ hj
    have hnp0 : maxPred l (l[j]) = false :=
      List.not_of_lt_findIdx hj'
    rw [hjget] at hnp0
    have hnotall : ¬ (∀ y ∈ l, oleb y (some w) = true) := by
      intro hall
      rw [maxPred_eq_true.mpr hall] at hnp0
      exact absurd hnp0 (by simp)
    push_neg at hnotall
    obtain ⟨y, hy, hyw⟩ := hnotall
    cases y with
    | none => exact absurd hy hn
    | some u =>
      have huw : w < u := by
        have hnle : ¬ (u ≤ w) := by
          intro hle
          exact hyw (by simp [oleb, hle])
        exact lt_of_not_le hnle
      have huv : u ≤ v := by
        have := hmax _ hy
        simpa [oleb] using this
      exact lt_of_lt_of_le huw huv

theorem mem_insertDesc {x a : ℚ} {l : List ℚ} :
    x ∈ insertDesc a l ↔ x = a ∨ x ∈ l := by
  induction l with
  | nil => simp [insertDesc]
  | cons y ys ih =>
    by_cases h : y ≤ a
    · simp [insertDesc, h]
    · simp [insertDesc, h, ih]
      tauto

theorem mem_sortDesc {x : ℚ} {l : List ℚ} : x ∈ sortDesc l ↔ x ∈ l := by
  induction l with
  | nil => simp [sortDesc]
  | cons a t ih =>
    show x ∈ insertDesc a (sortDesc t) ↔ _
    rw [mem_insertDesc]
    simp [ih]

theorem insertDesc_ne_nil (a : ℚ) (l : List ℚ) : insertDesc a l ≠ [] := by
  cases l with
  | nil => simp [insertDesc]
  | cons y ys =>
    by_cases h : y ≤ a <;> simp [insertDesc, h]

theorem sortDesc_ne_nil {l : List ℚ} (h : l ≠ []) : sortDesc l ≠ [] := by
  cases l with
  | nil => exact absurd rfl h
  | cons a t => exact insertDesc_ne_nil a (sortDesc t)

theorem mem_descThresholds {x : ℚ} {scores : List ℚ} :
    x ∈ descThresholds scores ↔ x ∈ scores := by
  unfold descThresholds
  rw [List.mem_dedup, mem_sortDesc]

theorem descThresholds_ne_nil {scores : List ℚ} (h : scores ≠ []) :
    descThresholds scores ≠ [] := by
  unfold descThresholds
  rw [Ne, List.dedup_eq_nil]
  exact sortDesc_ne_nil h

theorem roc_curve_thresholds (yRef : List ℤ) (yScore : List ℚ) (t0 : ℚ)
    (rest : List ℚ) (hts : descThresholds yScore = t0 :: rest) :
    (roc_curve yRef yScore).thresholds = (t0 + 1) :: t0 :: rest := by
  unfold roc_curve
  rw [hts]

theorem fScores_length (yRef : List ℤ) (yScore : List ℚ) :
    (fScores yRef yScore).length = (descThresholds yScore).length + 1 := by
  unfold fScores roc_curve
  simp [apply_ite List.length, List.length_zipWith]

theorem descThresholds_cons {yScore : List ℚ} (h : yScore ≠ []) :
    ∃ t0 rest, descThresholds yScore = t0 :: rest := by
  cases hts : descThresholds yScore with
  | nil => exact absurd hts (descThresholds_ne_nil h)
  | cons a b => exact ⟨a, b, rfl⟩

theorem validInput_score_ne_nil {yRef : List ℤ} {yScore : List ℚ}
    (hval : ValidInput yRef yScore) : yScore ≠ [] := by
  obtain ⟨hlen, _, _, h1⟩ := hval
  intro hs
  rw [hs] at hlen
  simp at hlen
  rw [hlen] at h1
  exact absurd h1 (List.not_mem_nil 1)

theorem fScores_ne_nil (yRef : List ℤ) (yScore : List ℚ) :
    fScores yRef yScore ≠ [] := by
  intro hh
  have := fScores_length yRef yScore
  rw [hh] at this
  simp at this

/-! Theorems for the claims about `get_best_threshold`. -/

/-- Claim C1 (code bug): the elementwise F-score computation
`2*(P*R)/(P+R)` in `get_best_threshold` has no guard against division by
zero.  At the input `Y_ref = [1, 0]`, `Y_pred_score = [1/5, 4/5]` the middle
ROC point has `fpr = 1` and `tpr = 0`, hence `P + R = 0`, and the F value
there is the NaN of `0.0/0.0` (`none`), not a defined sentinel; the NaN then
propagates into the returned pair via `np.argmax`. -/
theorem fScores_nan_no_sentinel :
    (roc_curve [1, 0] [1/5, 4/5]).fpr.get? 1 = some (some 1) ∧
    (roc_curve [1, 0] [1/5, 4/5]).tpr.get? 1 = some (some 0) ∧
    fScores [1, 0] [1/5, 4/5] = [some 0, none, some 0] ∧
    get_best_threshold [1, 0] [1/5, 4/5] = (4/5, none) := by decide!

/-- Claim C2 (code bug): for a reference-label sequence with fewer than two
distinct classes (here all-positive `Y_ref = [1, 1]`), `get_best_threshold`
raises no input-validation error: `roc_curve` with `pos_label=1` silently
yields an all-NaN false-positive-rate array, and the function returns the
pair `(max_score + 1, NaN)` instead of failing. -/
theorem get_best_threshold_no_validation_error :
    roc_curve [1, 1] [3/10, 7/10] =
      { fpr := [none, none, none],
        tpr := [some 0, some (1/2), some 1],
        thresholds := [17/10, 7/10, 3/10] } ∧
    get_best_threshold [1, 1] [3/10, 7/10] = (17/10, none) := by decide!

/-- Claim C3, counterexample: at the valid input `Y_ref = [1, 0]`,
`Y_pred_score = [1/5, 4/5]` (binary labels, both classes present) the
returned pair is NOT the threshold/F pair at the first index attaining the
maximum of the F array: the F array is `[0, NaN, 0]`, and the function
returns the NaN point `(4/5, NaN)` rather than a pair carrying a maximal
defined F value. -/
theorem get_best_threshold_argmax_counterexample :
    ¬ ∃ i v, (fScores [1, 0] [1/5, 4/5]).get? i = some (some v) ∧
      (∀ j w, (fScores [1, 0] [1/5, 4/5]).get? j = some (some w) → w ≤ v) ∧
      (∀ j, j < i → ∀ w,
        (fScores [1, 0] [1/5, 4/5]).get? j = some (some w) → w < v) ∧
      get_best_threshold [1, 0] [1/5, 4/5] =
        ((roc_curve [1, 0] [1/5, 4/5]).thresholds.getD i 0, some v) := by
  rintro ⟨i, v, _hv, _hmax, _hfirst, heq⟩
  have hres : get_best_threshold [1, 0] [1/5, 4/5] = (4/5, none) := by decide!
  rw [hres] at heq
  have hsnd : (none : Option ℚ) = some v := congrArg Prod.snd heq
  simp at hsnd

/-- Claim C3, amended: for every valid input (binary reference labels with
both classes present) at which no ROC curve point has `P + R = 0` (so the
F array has no NaN entry), `get_best_threshold` returns the pair
`(thresholds[i], F[i])` where `i` is the index of the maximum of the F
array, ties broken by the first occurrence of the maximum in the ROC-curve
point ordering. -/
theorem get_best_threshold_first_max (yRef : List ℤ) (yScore : List ℚ)
    (hval : ValidInput yRef yScore)
    (hdef : (none : Option ℚ) ∉ fScores yRef yScore) :
    ∃ i v, (fScores yRef yScore).get? i = some (some v) ∧
      (∀ j w, (fScores yRef yScore).get? j = some (some w) → w ≤ v) ∧
      (∀ j, j < i → ∀ w, (fScores yRef yScore).get? j = some (some w) → w < v) ∧
      get_best_threshold yRef yScore =
        ((roc_curve yRef yScore).thresholds.getD i 0, some v) := by
  have hfne : fScores yRef yScore ≠ [] := fScores_ne_nil yRef yScore
  obtain ⟨v, hv, hmax, hfirst⟩ := npArgmax_eq_first_max _ hfne hdef
  refine ⟨npArgmax (fScores yRef yScore), v, hv, hmax, hfirst, ?_⟩
  have hsnd : (fScores yRef yScore).getD (npArgmax (fScores yRef yScore)) none
      = some v := by
    rw [List.getD_eq_getElem?_getD, ← List.get?_eq_getElem?, hv]
    rfl
  simp only [get_best_threshold]
  rw [hsnd]

/-- Claim C6: for every valid input, the threshold returned by
`get_best_threshold` is one of the candidate thresholds of the ROC curve,
and every candidate threshold is either one of the input predicted scores
or the ROC-curve-derived leading candidate `max_score + 1` (a score plus
one). -/
theorem get_best_threshold_mem_thresholds (yRef : List ℤ) (yScore : List ℚ)
    (hval : ValidInput yRef yScore) :
    (get_best_threshold yRef yScore).1 ∈ (roc_curve yRef yScore).thresholds ∧
    ∀ t ∈ (roc_curve yRef yScore).thresholds,
      t ∈ yScore ∨ ∃ s ∈ yScore, t = s + 1 := by
  have hsne : yScore ≠ [] := validInput_score_ne_nil hval
  obtain ⟨t0, rest, hts⟩ := descThresholds_cons hsne
  have hthr := roc_curve_thresholds yRef yScore t0 rest hts
  constructor
  · have hflen : (fScores yRef yScore).length = rest.length + 2 := by
      rw [fScores_length, hts]
      simp
    have hi : npArgmax (fScores yRef yScore) < (fScores yRef yScore).length :=
      npArgmax_lt_length _ (fScores_ne_nil yRef yScore)
    have hit : npArgmax (fScores yRef yScore)
        < (roc_curve yRef yScore).thresholds.length := by
      rw [hthr]
      simp only [List.length_cons]
      rw [hflen] at hi
      exact hi
    simp only [get_best_threshold]
    rw [List.getD_eq_getElem?_getD, List.getElem?_eq_getElem hit]
    exact List.getElem_mem hit
  · intro t ht
    rw [hthr] at ht
    rcases List.mem_cons.mp ht with rfl | ht2
    · right
      refine ⟨t0, ?_, rfl⟩
      apply mem_descThresholds.mp
      rw [hts]
      exact List.mem_cons_self _ _
    · left
      apply mem_descThresholds.mp
      rw [hts]
      exact ht2

/-- Witness for the amended claim C3 at the concrete valid input
`Y_ref = [0, 1]`, `Y_pred_score = [1/5, 4/5]`, whose F array
`[0, 1, 0]` has no NaN entry. -/
theorem get_best_threshold_first_max_witness :
    ValidInput [0, 1] [1/5, 4/5] ∧
    (none : Option ℚ) ∉ fScores [0, 1] [1/5, 4/5] ∧
    ∃ i v, (fScores [0, 1] [1/5, 4/5]).get? i = some (some v) ∧
      (∀ j w, (fScores [0, 1] [1/5, 4/5]).get? j = some (some w) → w ≤ v) ∧
      (∀ j, j < i → ∀ w,
        (fScores [0, 1] [1/5, 4/5]).get? j = some (some w) → w < v) ∧
      get_best_threshold [0, 1] [1/5, 4/5] =
        ((roc_curve [0, 1] [1/5, 4/5]).thresholds.getD i 0, some v) :=
  ⟨by decide!, by decide!,
    get_best_threshold_first_max [0, 1] [1/5, 4/5] (by decide!) (by decide!)⟩

/-- Witness for claim C6 at the concrete valid input
`Y_ref = [0, 1]`, `Y_pred_score = [1/5, 4/5]`. -/
theorem get_best_threshold_mem_thresholds_witness :
    ValidInput [0, 1] [1/5, 4/5] ∧
    ((get_best_threshold [0, 1] [1/5, 4/5]).1
        ∈ (roc_curve [0, 1] [1/5, 4/5]).thresholds ∧
      ∀ t ∈ (roc_curve [0, 1] [1/5, 4/5]).thresholds,
        t ∈ [(1 : ℚ)/5, 4/5] ∨ ∃ s ∈ [(1 : ℚ)/5, 4/5], t = s + 1) :=
  ⟨by decide!, get_best_threshold_mem_thresholds [0, 1] [1/5, 4/5] (by decide!)⟩

/-! Labelling. -/

theorem label_all_contours_eq (train valid test : ContourDict) (t : ℚ) :
    label_all_contours train valid test t =
      (train.map (fun kv => (kv.1, label_contours kv.2 t)),
       valid.map (fun kv => (kv.1, label_contours kv.2 t)),
       test.map (fun kv => (kv.1, label_contours kv.2 t))) := rfl

theorem label_contours_mem {df : List ContourRecord} {t : ℚ}
    {r : ContourRecord} (hr : r ∈ label_contours df t) :
    (r.label = 1 ↔ t < r.overlap) ∧ (¬ t < r.overlap → r.label = 0) := by
  unfold label_contours at hr
  obtain ⟨s, _hs, rfl⟩ := List.mem_map.mp hr
  by_cases h : t < s.overlap <;> simp [h]

theorem label_dict_mem {d : ContourDict} {t : ℚ} {kv : String × List ContourRecord}
    (hkv : kv ∈ d.map (fun kv => (kv.1, label_contours kv.2 t))) :
    ∀ r ∈ kv.2, (r.label = 1 ↔ t < r.overlap) ∧ (¬ t < r.overlap → r.label = 0) := by
  obtain ⟨kv0, _h0, rfl⟩ := List.mem_map.mp hkv
  intro r hr
  exact label_contours_mem hr

/-- Claim C5: for every overlap threshold in [0,1) and every record in
every split processed by `label_all_contours`, the resulting label is 1
exactly when the overlap is strictly greater than the threshold and 0
otherwise; moreover each output split is a function of the corresponding
input split alone (no cross-split interaction). -/
theorem label_all_contours_spec (train valid test : ContourDict) (t : ℚ)
    (h0 : 0 ≤ t) (h1 : t < 1) :
    (∀ kv ∈ (label_all_contours train valid test t).1, ∀ r ∈ kv.2,
        (r.label = 1 ↔ t < r.overlap) ∧ (¬ t < r.overlap → r.label = 0)) ∧
    (∀ kv ∈ (label_all_contours train valid test t).2.1, ∀ r ∈ kv.2,
        (r.label = 1 ↔ t < r.overlap) ∧ (¬ t < r.overlap → r.label = 0)) ∧
    (∀ kv ∈ (label_all_contours train valid test t).2.2, ∀ r ∈ kv.2,
        (r.label = 1 ↔ t < r.overlap) ∧ (¬ t < r.overlap → r.label = 0)) ∧
    (∀ valid2 test2, (label_all_contours train valid2 test2 t).1
        = (label_all_contours train valid test t).1) ∧
    (∀ train2 test2, (label_all_contours train2 valid test2 t).2.1
        = (label_all_contours train valid test t).2.1) ∧
    (∀ train2 valid2, (label_all_contours train2 valid2 test t).2.2
        = (label_all_contours train valid test t).2.2) := by
  rw [label_all_contours_eq]
  refine ⟨?_, ?_, ?_, ?_, ?_, ?_⟩
  · intro kv hkv
    exact label_dict_mem hkv
  · intro kv hkv
    exact label_dict_mem hkv
  · intro kv hkv
    exact label_dict_mem hkv
  · intro valid2 test2
    rfl
  · intro train2 test2
    rfl
  · intro train2 valid2
    rfl

/-- Witness for claim C5 at a concrete threshold 1/2 and concrete splits. -/
theorem label_all_contours_spec_witness :
    (0 : ℚ) ≤ 1/2 ∧ (1/2 : ℚ) < 1 ∧
    ((∀ kv ∈ (label_all_contours wTrainDict wTrainDict wTrainDict (1/2)).1,
        ∀ r ∈ kv.2,
        (r.label = 1 ↔ 1/2 < r.overlap) ∧ (¬ (1/2 : ℚ) < r.overlap → r.label = 0)) ∧
      (∀ kv ∈ (label_all_contours wTrainDict wTrainDict wTrainDict (1/2)).2.1,
        ∀ r ∈ kv.2,
        (r.label = 1 ↔ 1/2 < r.overlap) ∧ (¬ (1/2 : ℚ) < r.overlap → r.label = 0)) ∧
      (∀ kv ∈ (label_all_contours wTrainDict wTrainDict wTrainDict (1/2)).2.2,
        ∀ r ∈ kv.2,
        (r.label = 1 ↔ 1/2 < r.overlap) ∧ (¬ (1/2 : ℚ) < r.overlap → r.label = 0)) ∧
      (∀ valid2 test2, (label_all_contours wTrainDict valid2 test2 (1/2)).1
          = (label_all_contours wTrainDict wTrainDict wTrainDict (1/2)).1) ∧
      (∀ train2 test2, (label_all_contours train2 wTrainDict test2 (1/2)).2.1
          = (label_all_contours wTrainDict wTrainDict wTrainDict (1/2)).2.1) ∧
      (∀ train2 valid2, (label_all_contours train2 valid2 wTrainDict (1/2)).2.2
          = (label_all_contours wTrainDict wTrainDict wTrainDict (1/2)).2.2)) :=
  ⟨by decide!, by decide!,
    label_all_contours_spec wTrainDict wTrainDict wTrainDict (1/2)
      (by decide!) (by decide!)⟩

theorem label_contours_idem (df : List ContourRecord) (t : ℚ) :
    label_contours (label_contours df t) t = label_contours df t := by
  unfold label_contours
  rw [List.map_map]
  apply List.map_congr_left
  intro r _hr
  by_cases h : t < r.overlap <;> simp [h]

theorem label_dict_idem (d : ContourDict) (t : ℚ) :
    (d.map (fun kv => (kv.1, label_contours kv.2 t))).map
        (fun kv => (kv.1, label_contours kv.2 t))
      = d.map (fun kv => (kv.1, label_contours kv.2 t)) := by
  rw [List.map_map]
  apply List.map_congr_left
  intro kv _hkv
  simp [Function.comp, label_contours_idem]

/-- Claim C7: labelling is idempotent: relabelling the three labelled
splits with the same threshold in [0,1) returns them unchanged. -/
theorem label_all_contours_idempotent (train valid test : ContourDict)
    (t : ℚ) (h0 : 0 ≤ t) (h1 : t < 1) :
    label_all_contours (label_all_contours train valid test t).1
      (label_all_contours train valid test t).2.1
      (label_all_contours train valid test t).2.2 t
      = label_all_contours train valid test t := by
  simp only [label_all_contours_eq]
  rw [label_dict_idem, label_dict_idem, label_dict_idem]

/-- Witness for claim C7 at a concrete threshold 1/2 and concrete splits. -/
theorem label_all_contours_idempotent_witness :
    (0 : ℚ) ≤ 1/2 ∧ (1/2 : ℚ) < 1 ∧
    label_all_contours
      (label_all_contours wTrainDict wTrainDict wTrainDict (1/2)).1
      (label_all_contours wTrainDict wTrainDict wTrainDict (1/2)).2.1
      (label_all_contours wTrainDict wTrainDict wTrainDict (1/2)).2.2 (1/2)
      = label_all_contours wTrainDict wTrainDict wTrainDict (1/2) :=
  ⟨by decide!, by decide!,
    label_all_contours_idempotent wTrainDict wTrainDict wTrainDict (1/2)
      (by decide!) (by decide!)⟩

/-! Probability scoring. -/

theorem setMelProb_length (v : ℚ) (d : List ContourRecord) :
    (setMelProb v d).length = d.length := List.length_map _ _

theorem contour_probs_error_eq {clf : List (List ℚ) → Except PredError (List (ℚ × ℚ))}
    {d : List ContourRecord} {e : PredError}
    (he : clf (pd_to_sklearn (setMelProb (-1) d)).1 = Except.error e) :
    contour_probs clf d = (Except.error e, setMelProb (-1) d) := by
  simp only [contour_probs]
  rw [he]

theorem contour_probs_ok_eq {clf : List (List ℚ) → Except PredError (List (ℚ × ℚ))}
    {d : List ContourRecord} {probs : List (ℚ × ℚ)}
    (hc : clf (pd_to_sklearn (setMelProb (-1) d)).1 = Except.ok probs)
    (hl : probs.length = d.length) :
    contour_probs clf d =
      (Except.ok (setMelProbs (setMelProb (-1) d) (probs.map (fun p => p.2))),
       setMelProbs (setMelProb (-1) d) (probs.map (fun p => p.2))) := by
  have hcond : (List.map (fun p => p.2) probs).length
      = (setMelProb (-1) d).length := by
    rw [List.length_map, setMelProb_length]
    exact hl
  simp only [contour_probs, hc, hcond, eq_self_iff_true, if_true]

/-- Claim C4: for every contour collection and every classifier honouring
the `predict_proba` contract (one probability pair per row, entries in
[0,1]), `contour_probs` returns a collection with the same record count and
ordering (record `i` of the output is record `i` of the input with only the
melody probability changed), and every attached melody probability lies in
[0,1]. -/
theorem contour_probs_spec (clf : List (List ℚ) → Except PredError (List (ℚ × ℚ)))
    (d : List ContourRecord) (probs : List (ℚ × ℚ))
    (hclf : clf (pd_to_sklearn (setMelProb (-1) d)).1 = Except.ok probs)
    (hlen : probs.length = d.length)
    (hrange : ∀ p ∈ probs, 0 ≤ p.2 ∧ p.2 ≤ 1) :
    ∃ out, contour_probs clf d = (Except.ok out, out) ∧
      out.length = d.length ∧
      ∀ i, i < d.length →
        ∃ r0 r1, d[i]? = some r0 ∧ out[i]? = some r1 ∧
          r1.features = r0.features ∧ r1.overlap = r0.overlap ∧
          r1.label = r0.label ∧ 0 ≤ r1.melProb ∧ r1.melProb ≤ 1 := by
  have hd1len : (setMelProb (-1) d).length = d.length := setMelProb_length _ _
  have hpslen : (probs.map (fun p => p.2)).length = d.length := by
    rw [List.length_map]
    exact hlen
  refine ⟨setMelProbs (setMelProb (-1) d) (probs.map (fun p => p.2)),
    contour_probs_ok_eq hclf hlen, ?_, ?_⟩
  · unfold setMelProbs
    rw [List.length_zipWith, hd1len, hpslen, min_self]
  · intro i hi
    have hi1 : i < (setMelProb (-1) d).length := by rw [hd1len]; exact hi
    have hips : i < (probs.map (fun p => p.2)).length := by rw [hpslen]; exact hi
    have hipr : i < probs.length := by rw [hlen]; exact hi
    refine ⟨d[i],
      { d[i] with melProb := (probs[i]).2 }, by
        rw [List.getElem?_eq_getElem hi], ?_, rfl, rfl, rfl, ?_, ?_⟩
    · show (List.zipWith _ (setMelProb (-1) d) (probs.map (fun p => p.2)))[i]? = _
      rw [List.getElem?_zipWith]
      rw [List.getElem?_eq_getElem hi1, List.getElem?_eq_getElem hips]
      simp only [setMelProb, List.getElem_map]
    · exact (hrange _ (List.getElem_mem hipr)).1
    · exact (hrange _ (List.getElem_mem hipr)).2

/-- Witness for claim C4: a one-record collection scored by a concrete
classifier returning the probability pair (1/4, 3/4) for every row. -/
theorem contour_probs_spec_witness :
    wClfOk (pd_to_sklearn (setMelProb (-1) [wRecord])).1
        = Except.ok [((1 : ℚ)/4, (3 : ℚ)/4)] ∧
    ([((1 : ℚ)/4, (3 : ℚ)/4)]).length = [wRecord].length ∧
    (∀ p ∈ [((1 : ℚ)/4, (3 : ℚ)/4)], 0 ≤ p.2 ∧ p.2 ≤ 1) ∧
    (∃ out, contour_probs wClfOk [wRecord] = (Except.ok out, out) ∧
      out.length = [wRecord].length ∧
      ∀ i, i < [wRecord].length →
        ∃ r0 r1, [wRecord][i]? = some r0 ∧ out[i]? = some r1 ∧
          r1.features = r0.features ∧ r1.overlap = r0.overlap ∧
          r1.label = r0.label ∧ 0 ≤ r1.melProb ∧ r1.melProb ≤ 1) :=
  ⟨rfl, by decide!, by decide!,
    contour_probs_spec wClfOk [wRecord] [((1 : ℚ)/4, (3 : ℚ)/4)]
      rfl (by decide!) (by decide!)⟩

/-- Claim C10: `contour_probs` mutates its input in place: it first sets
the melody probability of every record to -1, then invokes the classifier;
on success the returned collection is the (mutated) input object itself,
and if the classifier raises, the caller's collection is left with melody
probability -1 on every record (the operation is not atomic on error). -/
theorem contour_probs_inplace (clf : List (List ℚ) → Except PredError (List (ℚ × ℚ)))
    (d : List ContourRecord) :
    (∀ e, clf (pd_to_sklearn (setMelProb (-1) d)).1 = Except.error e →
      contour_probs clf d = (Except.error e, setMelProb (-1) d) ∧
      ∀ r ∈ (contour_probs clf d).2, r.melProb = -1) ∧
    (∀ v, (contour_probs clf d).1 = Except.ok v →
      (contour_probs clf d).2 = v) := by
  constructor
  · intro e he
    have h1 := contour_probs_error_eq he
    refine ⟨h1, ?_⟩
    rw [h1]
    intro r hr
    obtain ⟨s, _hs, rfl⟩ := List.mem_map.mp hr
    rfl
  · intro v hv
    cases hc : clf (pd_to_sklearn (setMelProb (-1) d)).1 with
    | error e =>
      rw [contour_probs_error_eq hc] at hv
      exact absurd hv (by simp)
    | ok probs =>
      by_cases hl : (probs.map (fun p => p.2)).length = (setMelProb (-1) d).length
      · have hl2 : probs.length = d.length := by
          rw [List.length_map] at hl
          rw [setMelProb_length] at hl
          exact hl
        have := contour_probs_ok_eq hc hl2
        rw [this] at hv ⊢
        simpa using hv
      · have hbad : contour_probs clf d =
            (Except.error PredError.lengthMismatch, setMelProb (-1) d) := by
          simp only [contour_probs, hc]
          rw [if_neg hl]
        rw [hbad] at hv
        exact absurd hv (by simp)

/-- Witness for claim C10: a concrete classifier that always raises leaves
the caller's one-record collection with melody probability -1. -/
theorem contour_probs_inplace_witness :
    wClfFail (pd_to_sklearn (setMelProb (-1) [wRecord])).1
        = Except.error PredError.clfFailure ∧
    (contour_probs wClfFail [wRecord]
        = (Except.error PredError.clfFailure, setMelProb (-1) [wRecord]) ∧
      ∀ r ∈ (contour_probs wClfFail [wRecord]).2, r.melProb = -1) :=
  ⟨rfl, (contour_probs_inplace wClfFail [wRecord]).1 PredError.clfFailure rfl⟩

/-! Overlap statistics. -/

theorem countP_partition {l : List ℚ} (h : ∀ o ∈ l, 0 ≤ o) :
    l.countP (fun o => decide (0 < o)) + l.countP (fun o => decide (o = 0))
      = l.length := by
  induction l with
  | nil => simp
  | cons a tl ih =>
    have ha := h a (List.mem_cons_self _ _)
    have ht : ∀ o ∈ tl, 0 ≤ o := fun o ho => h o (List.mem_cons_of_mem _ ho)
    have hih := ih ht
    rcases lt_or_eq_of_le ha with hlt | heq
    · rw [List.countP_cons_of_pos _ _ (by simpa using hlt),
        List.countP_cons_of_neg _ _ (by simpa using ne_of_gt hlt),
        List.length_cons]
      omega
    · rw [List.countP_cons_of_neg _ _ (by simp [← heq]),
        List.countP_cons_of_pos _ _ (by simp [← heq]),
        List.length_cons]
      omega

/-- Claim C8: `olap_stats` concatenates all records' overlap values across
all tracks, partitions them into the strictly-positive and zero-overlap
subsets and describes each; given overlap in [0,1] for every record, the
two subset counts sum to the total record count. -/
theorem olap_stats_spec (d : ContourDict)
    (h : ∀ kv ∈ d, ∀ r ∈ kv.2, 0 ≤ r.overlap ∧ r.overlap ≤ 1) :
    (olap_stats d).1 = describe ((allOverlaps d).filter (fun o => decide (0 < o))) ∧
    (olap_stats d).2 = describe ((allOverlaps d).filter (fun o => decide (o = 0))) ∧
    (olap_stats d).1.count + (olap_stats d).2.count = (allOverlaps d).length ∧
    (allOverlaps d).length = (d.map (fun kv => kv.2.length)).sum := by
  have hpos : ∀ o ∈ allOverlaps d, 0 ≤ o := by
    intro o ho
    unfold allOverlaps at ho
    rw [List.mem_flatten] at ho
    obtain ⟨s, hs, hos⟩ := ho
    obtain ⟨kv, hkv, rfl⟩ := List.mem_map.mp hs
    obtain ⟨r, hr, rfl⟩ := List.mem_map.mp hos
    exact (h kv hkv r hr).1
  refine ⟨rfl, rfl, ?_, ?_⟩
  · show ((allOverlaps d).filter (fun o => decide (0 < o))).length
        + ((allOverlaps d).filter (fun o => decide (o = 0))).length = _
    rw [← List.countP_eq_length_filter, ← List.countP_eq_length_filter]
    exact countP_partition hpos
  · unfold allOverlaps
    rw [List.length_flatten, List.map_map]
    congr 1
    apply List.map_congr_left
    intro kv _
    simp [Function.comp]

/-- Witness for claim C8 at the spec's scenario: overlaps 0, 0.6, 0.9 for
track t1 and 0, 0.2 for track t2 give zero-subset count 2, positive-subset
count 3 and positive-subset mean (0.6 + 0.9 + 0.2)/3 = 17/30. -/
theorem olap_stats_spec_witness :
    (∀ kv ∈ wTrainDict, ∀ r ∈ kv.2, 0 ≤ r.overlap ∧ r.overlap ≤ 1) ∧
    (olap_stats wTrainDict).1.count + (olap_stats wTrainDict).2.count
      = (allOverlaps wTrainDict).length ∧
    (olap_stats wTrainDict).1.count = 3 ∧
    (olap_stats wTrainDict).2.count = 2 ∧
    (allOverlaps wTrainDict).length = 5 ∧
    (olap_stats wTrainDict).1.mean = some (17/30) :=
  ⟨by decide!, (olap_stats_spec wTrainDict (by decide!)).2.2.1,
    by decide!, by decide!, by decide!, by decide!⟩

/-! Dict lemmas. -/

theorem dictLookup_map_self {α : Type} (d : Dict α) (k : String) (v : α) :
    dictLookup (d.map (fun kv => if kv.1 = k then (k, v) else kv)) k
      = if d.any (fun kv => decide (kv.1 = k)) then some v else none := by
  induction d with
  | nil => rfl
  | cons kv rest ih =>
    rw [List.map_cons, List.any_cons]
    by_cases hk : kv.1 = k
    · simp [dictLookup, hk, ih]
    · rw [decide_eq_false hk, Bool.false_or]
      simp [dictLookup, hk, ih]

theorem dictLookup_map_ne {α : Type} (d : Dict α) (k k2 : String) (v : α)
    (hne : k2 ≠ k) :
    dictLookup (d.map (fun kv => if kv.1 = k then (k, v) else kv)) k2
      = dictLookup d k2 := by
  induction d with
  | nil => rfl
  | cons kv rest ih =>
    rw [List.map_cons]
    by_cases hk : kv.1 = k
    · rw [if_pos hk]
      simp only [dictLookup]
      rw [if_neg (fun h => hne h.symm), if_neg (fun h => hne ((hk ▸ h).symm))]
      exact ih
    · rw [if_neg hk]
      simp only [dictLookup]
      by_cases hk2 : kv.1 = k2 <;> simp [hk2, ih]

theorem dictLookup_append_single_self {α : Type} (d : Dict α) (k : String)
    (v : α) (h : ∀ kv ∈ d, kv.1 ≠ k) :
    dictLookup (d ++ [(k, v)]) k = some v := by
  induction d with
  | nil =>
    simp [dictLookup]
  | cons kv rest ih =>
    simp only [List.cons_append, dictLookup]
    rw [if_neg (h kv (List.mem_cons_self _ _))]
    exact ih (fun x hx => h x (List.mem_cons_of_mem _ hx))

theorem dictLookup_append_single_ne {α : Type} (d : Dict α) (k k2 : String)
    (v : α) (hne : k2 ≠ k) :
    dictLookup (d ++ [(k, v)]) k2 = dictLookup d k2 := by
  induction d with
  | nil =>
    simp only [List.nil_append, dictLookup]
    rw [if_neg (fun h => hne h.symm)]
  | cons kv rest ih =>
    simp only [List.cons_append, dictLookup]
    by_cases hk2 : kv.1 = k2 <;> simp [hk2, ih]

theorem dictLookup_dictInsert_self {α : Type} (d : Dict α) (k : String) (v : α) :
    dictLookup (dictInsert d k v) k = some v := by
  unfold dictInsert
  by_cases hany : d.any (fun kv => decide (kv.1 = k)) = true
  · rw [if_pos hany, dictLookup_map_self, if_pos hany]
  · rw [if_neg hany]
    apply dictLookup_append_single_self
    intro kv hkv hk
    exact hany (List.any_eq_true.mpr ⟨kv, hkv, by simp [hk]⟩)

theorem dictLookup_dictInsert_ne {α : Type} (d : Dict α) (k k2 : String)
    (v : α) (hne : k2 ≠ k) :
    dictLookup (dictInsert d k v) k2 = dictLookup d k2 := by
  unfold dictInsert
  by_cases hany : d.any (fun kv => decide (kv.1 = k)) = true
  · rw [if_pos hany]
    exact dictLookup_map_ne d k k2 v hne
  · rw [if_neg hany]
    exact dictLookup_append_single_ne d k k2 v hne

theorem dictKeys_dictInsert {α : Type} (d : Dict α) (k : String) (v : α) :
    dictKeys (dictInsert d k v)
      = if d.any (fun kv => decide (kv.1 = k)) then dictKeys d
        else dictKeys d ++ [k] := by
  unfold dictInsert dictKeys
  by_cases hany : d.any (fun kv => decide (kv.1 = k)) = true
  · rw [if_pos hany, if_pos hany, List.map_map]
    apply List.map_congr_left
    intro kv _
    by_cases hk : kv.1 = k <;> simp [Function.comp, hk]
  · rw [if_neg hany, if_neg hany, List.map_append]
    rfl

theorem mem_dictKeys_dictInsert {α : Type} (d : Dict α) (k t : String) (v : α) :
    t ∈ dictKeys (dictInsert d k v) ↔ t ∈ dictKeys d ∨ t = k := by
  rw [dictKeys_dictInsert]
  by_cases hany : d.any (fun kv => decide (kv.1 = k)) = true
  · rw [if_pos hany]
    constructor
    · exact Or.inl
    · rintro (h | rfl)
      · exact h
      · obtain ⟨kv, hkv, hk⟩ := List.any_eq_true.mp hany
        rw [decide_eq_true_eq] at hk
        exact List.mem_map.mpr ⟨kv, hkv, hk⟩
  · rw [if_neg hany, List.mem_append]
    simp

theorem nodup_dictKeys_dictInsert {α : Type} (d : Dict α) (k : String) (v : α)
    (h : (dictKeys d).Nodup) : (dictKeys (dictInsert d k v)).Nodup := by
  rw [dictKeys_dictInsert]
  by_cases hany : d.any (fun kv => decide (kv.1 = k)) = true
  · rw [if_pos hany]
    exact h
  · rw [if_neg hany]
    have hk : k ∉ dictKeys d := by
      intro hmem
      obtain ⟨kv, hkv, hfst⟩ := List.mem_map.mp hmem
      exact hany (List.any_eq_true.mpr ⟨kv, hkv, by simp [hfst]⟩)
    rw [← List.concat_eq_append]
    exact List.Nodup.concat hk h

theorem insertAll_nil {α : Type} (f : String → α) (d0 : Dict α) :
    insertAll f [] d0 = d0 := rfl

theorem insertAll_cons {α : Type} (f : String → α) (t : String)
    (ts : List String) (d0 : Dict α) :
    insertAll f (t :: ts) d0 = insertAll f ts (dictInsert d0 t (f t)) := rfl

theorem dictLookup_insertAll_of_not_mem {α : Type} (f : String → α)
    (tracks : List String) (d0 : Dict α) (k : String) (hk : k ∉ tracks) :
    dictLookup (insertAll f tracks d0) k = dictLookup d0 k := by
  induction tracks generalizing d0 with
  | nil => rfl
  | cons t ts ih =>
    rw [insertAll_cons]
    have hkt : k ≠ t := fun he => hk (he ▸ List.mem_cons_self _ _)
    have hkts : k ∉ ts := fun h2 => hk (List.mem_cons_of_mem _ h2)
    rw [ih _ hkts]
    exact dictLookup_dictInsert_ne d0 t k (f t) hkt

theorem dictLookup_insertAll_mem {α : Type} (f : String → α)
    (tracks : List String) (d0 : Dict α) (k : String) (hk : k ∈ tracks) :
    dictLookup (insertAll f tracks d0) k = some (f k) := by
  induction tracks generalizing d0 with
  | nil => exact absurd hk (List.not_mem_nil k)
  | cons t ts ih =>
    rw [insertAll_cons]
    by_cases hmem : k ∈ ts
    · exact ih _ hmem
    · have hkt : k = t := by
        rcases List.mem_cons.mp hk with h | h
        · exact h
        · exact absurd h hmem
      subst hkt
      rw [dictLookup_insertAll_of_not_mem f ts _ k hmem]
      exact dictLookup_dictInsert_self d0 k (f k)

theorem mem_dictKeys_insertAll {α : Type} (f : String → α)
    (tracks : List String) (d0 : Dict α) (t : String) :
    t ∈ dictKeys (insertAll f tracks d0) ↔ t ∈ dictKeys d0 ∨ t ∈ tracks := by
  induction tracks generalizing d0 with
  | nil => simp [insertAll_nil]
  | cons tr ts ih =>
    rw [insertAll_cons, ih, mem_dictKeys_dictInsert, List.mem_cons]
    tauto

theorem nodup_dictKeys_insertAll {α : Type} (f : String → α)
    (tracks : List String) (d0 : Dict α) (h : (dictKeys d0).Nodup) :
    (dictKeys (insertAll f tracks d0)).Nodup := by
  induction tracks generalizing d0 with
  | nil => exact h
  | cons t ts ih =>
    rw [insertAll_cons]
    exact ih _ (nodup_dictKeys_dictInsert d0 t (f t) h)

theorem insertAll_spec {α : Type} (f : String → α) (tracks : List String) :
    (∀ track ∈ tracks, dictLookup (insertAll f tracks []) track
        = some (f track)) ∧
    (∀ t, t ∈ dictKeys (insertAll f tracks []) ↔ t ∈ tracks) ∧
    (dictKeys (insertAll f tracks [])).Nodup := by
  refine ⟨?_, ?_, ?_⟩
  · intro track htrack
    exact dictLookup_insertAll_mem f tracks [] track htrack
  · intro t
    rw [mem_dictKeys_insertAll]
    simp [dictKeys]
  · exact nodup_dictKeys_insertAll f tracks [] (by simp [dictKeys])

theorem foldl_pair_insert {α β : Type} (f : String → α) (g : String → β)
    (tracks : List String) (d1 : Dict α) (d2 : Dict β) :
    tracks.foldl
      (fun dd track =>
        (dictInsert dd.1 track (f track), dictInsert dd.2 track (g track)))
      (d1, d2)
      = (insertAll f tracks d1, insertAll g tracks d2) := by
  induction tracks generalizing d1 d2 with
  | nil => rfl
  | cons t ts ih =>
    rw [List.foldl_cons, insertAll_cons, insertAll_cons]
    exact ih (dictInsert d1 t (f t)) (dictInsert d2 t (g t))

theorem compute_all_overlaps_eq {C A D : Type} (load : String → C × A)
    (computeOverlap : C → A → D)
    (train_tracks valid_tracks test_tracks : List String) :
    compute_all_overlaps load computeOverlap train_tracks valid_tracks
        test_tracks
      = (insertAll (fun track => computeOverlap (load track).1 (load track).2)
            train_tracks [],
         insertAll (fun track => computeOverlap (load track).1 (load track).2)
            valid_tracks [],
         insertAll (fun track => (load track).2) valid_tracks [],
         insertAll (fun track => computeOverlap (load track).1 (load track).2)
            test_tracks [],
         insertAll (fun track => (load track).2) test_tracks []) := by
  simp only [compute_all_overlaps]
  rw [foldl_pair_insert (fun track => (load track).2)
      (fun track => computeOverlap (load track).1 (load track).2)
      valid_tracks [] [],
    foldl_pair_insert (fun track => (load track).2)
      (fun track => computeOverlap (load track).1 (load track).2)
      test_tracks [] []]
  rfl

/-- Claim C9: `compute_all_overlaps` returns five dicts in the order
(train contours, valid contours, valid annotations, test contours, test
annotations); each contour dict holds exactly one overlap-augmented
collection per track of its input list, keyed by track id (keys are
exactly the list's tracks, with no duplicate key), the annotation dicts
exist only for the validation and test lists and hold the raw loaded
annotation. -/
theorem compute_all_overlaps_spec {C A D : Type} (load : String → C × A)
    (computeOverlap : C → A → D)
    (train_tracks valid_tracks test_tracks : List String) :
    (∀ track ∈ train_tracks,
      dictLookup (compute_all_overlaps load computeOverlap train_tracks
          valid_tracks test_tracks).1 track
        = some (computeOverlap (load track).1 (load track).2)) ∧
    (∀ t, t ∈ dictKeys (compute_all_overlaps load computeOverlap train_tracks
        valid_tracks test_tracks).1 ↔ t ∈ train_tracks) ∧
    (dictKeys (compute_all_overlaps load computeOverlap train_tracks
        valid_tracks test_tracks).1).Nodup ∧
    (∀ track ∈ valid_tracks,
      dictLookup (compute_all_overlaps load computeOverlap train_tracks
          valid_tracks test_tracks).2.1 track
        = some (computeOverlap (load track).1 (load track).2)) ∧
    (∀ t, t ∈ dictKeys (compute_all_overlaps load computeOverlap train_tracks
        valid_tracks test_tracks).2.1 ↔ t ∈ valid_tracks) ∧
    (dictKeys (compute_all_overlaps load computeOverlap train_tracks
        valid_tracks test_tracks).2.1).Nodup ∧
    (∀ track ∈ valid_tracks,
      dictLookup (compute_all_overlaps load computeOverlap train_tracks
          valid_tracks test_tracks).2.2.1 track = some (load track).2) ∧
    (∀ t, t ∈ dictKeys (compute_all_overlaps load computeOverlap train_tracks
        valid_tracks test_tracks).2.2.1 ↔ t ∈ valid_tracks) ∧
    (∀ track ∈ test_tracks,
      dictLookup (compute_all_overlaps load computeOverlap train_tracks
          valid_tracks test_tracks).2.2.2.1 track
        = some (computeOverlap (load track).1 (load track).2)) ∧
    (∀ t, t ∈ dictKeys (compute_all_overlaps load computeOverlap train_tracks
        valid_tracks test_tracks).2.2.2.1 ↔ t ∈ test_tracks) ∧
    (dictKeys (compute_all_overlaps load computeOverlap train_tracks
        valid_tracks test_tracks).2.2.2.1).Nodup ∧
    (∀ track ∈ test_tracks,
      dictLookup (compute_all_overlaps load computeOverlap train_tracks
          valid_tracks test_tracks).2.2.2.2 track = some (load track).2) ∧
    (∀ t, t ∈ dictKeys (compute_all_overlaps load computeOverlap train_tracks
        valid_tracks test_tracks).2.2.2.2 ↔ t ∈ test_tracks) := by
  rw [compute_all_overlaps_eq]
  refine ⟨(insertAll_spec _ _).1, (insertAll_spec _ _).2.1,
    (insertAll_spec _ _).2.2, (insertAll_spec _ _).1,
    (insertAll_spec _ _).2.1, (insertAll_spec _ _).2.2,
    (insertAll_spec _ _).1, (insertAll_spec _ _).2.1,
    (insertAll_spec _ _).1, (insertAll_spec _ _).2.1,
    (insertAll_spec _ _).2.2, (insertAll_spec _ _).1,
    (insertAll_spec _ _).2.1⟩

/-- Witness for claim C9 at concrete track lists and a concrete loader. -/
theorem compute_all_overlaps_spec_witness :
    dictLookup (compute_all_overlaps wLoad wOverlap ["t1"] ["v1"] ["s1"]).1
        "t1" = some (wOverlap (wLoad "t1").1 (wLoad "t1").2) ∧
    dictLookup (compute_all_overlaps wLoad wOverlap ["t1"] ["v1"] ["s1"]).2.1
        "v1" = some (wOverlap (wLoad "v1").1 (wLoad "v1").2) ∧
    dictLookup (compute_all_overlaps wLoad wOverlap ["t1"] ["v1"] ["s1"]).2.2.1
        "v1" = some (wLoad "v1").2 ∧
    dictLookup (compute_all_overlaps wLoad wOverlap ["t1"] ["v1"]
        ["s1"]).2.2.2.1 "s1" = some (wOverlap (wLoad "s1").1 (wLoad "s1").2) ∧
    dictLookup (compute_all_overlaps wLoad wOverlap ["t1"] ["v1"]
        ["s1"]).2.2.2.2 "s1" = some (wLoad "s1").2 :=
  ⟨(compute_all_overlaps_spec wLoad wOverlap ["t1"] ["v1"] ["s1"]).1
      "t1" (by simp),
   (compute_all_overlaps_spec wLoad wOverlap ["t1"] ["v1"] ["s1"]).2.2.2.1
      "v1" (by simp),
   (compute_all_overlaps_spec wLoad wOverlap ["t1"] ["v1"] ["s1"]).2.2.2.2.2.2.1
      "v1" (by simp),
   (compute_all_overlaps_spec wLoad wOverlap ["t1"] ["v1"]
      ["s1"]).2.2.2.2.2.2.2.2.1 "s1" (by simp),
   (compute_all_overlaps_spec wLoad wOverlap ["t1"] ["v1"]
      ["s1"]).2.2.2.2.2.2.2.2.2.2.2.1 "s1" (by simp)⟩

end MelodyContour
